import Mathlib

set_option maxHeartbeats 1000000

/-!
Verification development for the gexf-render-video pipeline
(slicer, temporal layout, rasterizer).

Conventions of the shallow embedding:
* JavaScript numbers are idealized as exact rationals (ℚ); exact-real
  square roots appearing in formulas are handled either through ℝ
  (node sizing) or through exact square comparisons (voronoi distances:
  for nonnegative d and r, d < r iff 0 < r and d^2 < r^2).
* A CLI option or XML attribute that may be absent is an Option; JS
  truthiness of an attribute string is isSome (a provided option string
  is nonempty, hence truthy), and JS truthiness of a numeric attribute
  value is "present and nonzero".
* Fallible or possibly diverging loops are totalized either by a fuel
  argument (returning none when the fuel is exhausted before the loop
  exits) or by well-founded recursion under the hypothesis making the
  loop terminate.
-/

/-! ## Slicer (src/unnamed/part_006) -/

/-- One time slice. The source field named end is renamed stop
(end is a Lean keyword). -/
structure Slice where
  start : ℚ
  stop : ℚ
deriving Repr, DecidableEq

/-- A spell element: optional start and end attributes. -/
structure Spell where
  start : Option ℚ
  stop : Option ℚ
deriving Repr, DecidableEq

/-- A node element under the interval time representation: optional
start and end attributes plus the spells of its first spells child. -/
structure DNode where
  start : Option ℚ
  stop : Option ℚ
  spells : List Spell
deriving Repr, DecidableEq

/-- Transcription of overlapDomnodeSlice (interval representation),
part_006 lines 225-243. If the element has a start or an end attribute,
the result is NOT(endDate < slice.start OR slice.end < startDate), where
a missing start behaves as -infinity and a missing end as +infinity
(folded into the matches: a missing bound can never satisfy its
comparison). If the element has neither attribute the JS function
returns undefined, which is falsy. -/
def overlapDomnodeSlice (start stop : Option ℚ) (s : Slice) : Bool :=
  if start.isSome || stop.isSome then
    let endEarly : Bool :=
      match stop with
      | some e => decide (e < s.start)
      | none => false
    let startLate : Bool :=
      match start with
      | some t => decide (s.stop < t)
      | none => false
    !(endEarly || startLate)
  else
    false

/-- Transcription of checkNodeSlice (interval representation),
part_006 lines 258-276: when the node has its own start or end
attribute only its own interval is tested; the spells are consulted
only when the node has neither attribute. A fall-through returns
undefined (falsy). -/
def checkNodeSlice (n : DNode) (s : Slice) : Bool :=
  if n.start.isSome || n.stop.isSome then
    overlapDomnodeSlice n.start n.stop s
  else
    n.spells.any (fun sp => overlapDomnodeSlice sp.start sp.stop s)

/-- The membership policy in the words of the claim: active iff the
node's own interval overlaps the slice OR any of its spells overlaps
the slice. -/
def claimIntervalActive (n : DNode) (s : Slice) : Bool :=
  overlapDomnodeSlice n.start n.stop s
    || n.spells.any (fun sp => overlapDomnodeSlice sp.start sp.stop s)

/-- C1 counterexample: a node carrying its own interval [0,1] and a
spell [5,6] is, by the claim, active in the slice [5,6] (the spell
overlaps it), but checkNodeSlice ignores the spells whenever the node
has its own start or end attribute, so the code reports it inactive. -/
theorem checkNodeSlice_claim_false :
    let n : DNode := ⟨some 0, some 1, [⟨some 5, some 6⟩]⟩
    let s : Slice := ⟨5, 6⟩
    claimIntervalActive n s = true ∧ checkNodeSlice n s = false := by
  constructor <;> rfl

/-- The overlap test as a proposition: for an element with a start or
end attribute, overlap holds iff no present end precedes the slice and
no present start follows the slice. -/
theorem overlapDomnodeSlice_eq_true (st en : Option ℚ) (s : Slice) :
    overlapDomnodeSlice st en s = true ↔
      (st.isSome = true ∨ en.isSome = true) ∧
      (∀ e, en = some e → ¬ e < s.start) ∧
      (∀ t, st = some t → ¬ s.stop < t) := by
  rcases st with _ | t <;> rcases en with _ | e <;>
    simp [overlapDomnodeSlice] <;> tauto

/-- C1 (amended): under the interval representation a node is active in
a slice iff EITHER it has an own start or end attribute and its own
interval overlaps the slice (missing start = -infinity, missing end =
+infinity, overlap = NOT(endDate < slice.start OR slice.end <
startDate)), OR it has neither own attribute and some spell with a
start or end attribute overlaps the slice. In particular a node with
no own interval and no spells is active in no slice. -/
theorem checkNodeSlice_spec (n : DNode) (s : Slice) :
    (checkNodeSlice n s = true ↔
      ((n.start.isSome = true ∨ n.stop.isSome = true) ∧
        (∀ e, n.stop = some e → ¬ e < s.start) ∧
        (∀ t, n.start = some t → ¬ s.stop < t)) ∨
      (n.start = none ∧ n.stop = none ∧
        ∃ sp ∈ n.spells,
          (sp.start.isSome = true ∨ sp.stop.isSome = true) ∧
          (∀ e, sp.stop = some e → ¬ e < s.start) ∧
          (∀ t, sp.start = some t → ¬ s.stop < t)))
    ∧ (n.start = none → n.stop = none → n.spells = [] →
        checkNodeSlice n s = false) := by
  constructor
  · rcases hs1 : n.start with _ | t <;> rcases hs2 : n.stop with _ | e <;>
      simp [checkNodeSlice, hs1, hs2, List.any_eq_true,
        overlapDomnodeSlice_eq_true]
  · intro h1 h2 h3
    simp [checkNodeSlice, h1, h2, h3]

/-! ### Window defaults and the step option (part_006 lines 147-161) -/

/-- Transcription of the windowRange computation, part_006 line 160:
windowRange = (options.range ? +options.range : windowRangeDefault) *
windowUnitRatio. A provided option is a nonempty string, hence truthy. -/
def windowRange (optRange : Option ℚ) (rangeDefault unitRat : ℚ) : ℚ :=
  (match optRange with
    | some r => r
    | none => rangeDefault) * unitRat

/-- Transcription of the windowStep computation, part_006 line 161:
windowStep = (options.range ? +options.range : windowStepDefault) *
windowUnitRatio. Note that the source reads options.range here, not
options.step; the optStep argument is taken only to show it is
ignored. -/
def windowStep (optRange optStep : Option ℚ) (stepDefault unitRat : ℚ) : ℚ :=
  (match optRange with
    | some r => r
    | none => stepDefault) * unitRat

/-- C3: with the integer time format (unit ratio 1, step default 0.1),
a run with range option 2 and step option 1 gets stride windowStep = 2,
not the requested 1: the step CLI value is ignored, the step falls back
to the range option for any provided step value. -/
theorem windowStep_ignores_step_option :
    windowStep (some 2) (some 1) (1/10) 1 = 2 ∧
    ((2 : ℚ) ≠ 1) ∧
    (∀ s : Option ℚ, windowStep (some 2) s (1/10) 1 = windowStep (some 2) (some 1) (1/10) 1) := by
  refine ⟨by norm_num [windowStep], by norm_num, fun s => rfl⟩

/-! ### Sample range check (render-video.js lines 36-55, part_002 lines 47-55) -/

/-- Transcription of the sample option range check: the branch is taken
(program exits) when options.sample < 0 or options.sample >
data.slices.length; this function returns true when the check passes. -/
def sampleCheckPasses (sample : ℤ) (len : ℕ) : Bool :=
  !(decide (sample < 0) || decide ((len : ℤ) < sample))

/-- Indexing data.slices[sample] yields a defined element exactly for
integer indexes 0 <= sample < length. -/
def sampleIndexDefined (sample : ℤ) (len : ℕ) : Bool :=
  decide (0 ≤ sample) && decide (sample < (len : ℤ))

/-- C10 counterexample: with exactly one loaded slice, the sample index
1 passes the range check (NOT(1 < 0 or 1 > 1)) yet data.slices[1] is
undefined: the check admits the out-of-bounds boundary index. -/
theorem sampleCheck_admits_out_of_bounds :
    sampleCheckPasses 1 1 = true ∧ sampleIndexDefined 1 1 = false := by
  constructor <;> rfl

/-- C10 (amended): the range check passes exactly for 0 <= sample <=
length; indexing is defined exactly for 0 <= sample < length; hence
every index admitted by the check is in bounds except the single
boundary index sample = length. -/
theorem sampleCheck_spec (sample : ℤ) (len : ℕ) :
    (sampleCheckPasses sample len = true ↔ 0 ≤ sample ∧ sample ≤ (len : ℤ)) ∧
    (sampleIndexDefined sample len = true ↔ 0 ≤ sample ∧ sample < (len : ℤ)) ∧
    (sampleCheckPasses sample len = true →
      sampleIndexDefined sample len = false → sample = (len : ℤ)) := by
  refine ⟨?_, ?_, ?_⟩
  · simp [sampleCheckPasses]
    all_goals omega
  · simp [sampleIndexDefined]
  · simp [sampleCheckPasses, sampleIndexDefined]
    all_goals omega

/-! ### Slice generation (part_006 lines 209-219)

The source loop is: for (let i = dateMin; i <= dateMax - windowRange;
i += windowStep) push {start: i, end: i + windowRange}. The loop is
totalized with a fuel argument: none means the loop has not exited
within fuel iterations (so a result of none for every fuel is
non-termination). -/

def slicesLoopFuel (dateMax range step : ℚ) : ℕ → ℚ → Option (List Slice)
  | 0, i => if i ≤ dateMax - range then none else some []
  | fuel+1, i =>
      if i ≤ dateMax - range then
        (slicesLoopFuel dateMax range step fuel (i + step)).map
          (fun l => Slice.mk i (i + range) :: l)
      else some []

/-- The slices array built by the source loop, starting at dateMin. -/
def slices (dateMin dateMax range step : ℚ) (fuel : ℕ) : Option (List Slice) :=
  slicesLoopFuel dateMax range step fuel dateMin

/-- With a positive step, enough fuel makes the loop exit. -/
theorem slicesLoopFuel_terminates (dateMax range step : ℚ) (hstep : 0 < step) :
    ∀ (fuel : ℕ) (i : ℚ), (⌊(dateMax - range - i) / step⌋ + 1).toNat ≤ fuel →
      ∃ L, slicesLoopFuel dateMax range step fuel i = some L := by
  intro fuel
  induction fuel with
  | zero =>
    intro i hm
    have hfl : ⌊(dateMax - range - i) / step⌋ + 1 ≤ 0 := by omega
    have hneg : (dateMax - range - i) / step < 0 := by
      have := Int.lt_floor_add_one ((dateMax - range - i) / step)
      calc (dateMax - range - i) / step < ⌊(dateMax - range - i) / step⌋ + 1 := this
        _ ≤ 0 := by exact_mod_cast hfl
    have hcond : ¬ i ≤ dateMax - range := by
      intro hle
      have : 0 ≤ (dateMax - range - i) / step :=
        div_nonneg (by linarith) hstep.le
      linarith
    exact ⟨[], by simp [slicesLoopFuel, hcond]⟩
  | succ fuel ih =>
    intro i hm
    by_cases hcond : i ≤ dateMax - range
    · have hx : 0 ≤ (dateMax - range - i) / step :=
        div_nonneg (by linarith) hstep.le
      have he : (dateMax - range - (i + step)) / step =
          (dateMax - range - i) / step - 1 := by
        field_simp
        ring
      have hfl : ⌊(dateMax - range - (i + step)) / step⌋ =
          ⌊(dateMax - range - i) / step⌋ - 1 := by
        rw [he]
        exact_mod_cast Int.floor_sub_int ((dateMax - range - i) / step) 1
      have h0 : 0 ≤ ⌊(dateMax - range - i) / step⌋ := Int.floor_nonneg.mpr hx
      have hm2 : (⌊(dateMax - range - (i + step)) / step⌋ + 1).toNat ≤ fuel := by
        rw [hfl]; omega
      obtain ⟨L, hL⟩ := ih (i + step) hm2
      exact ⟨Slice.mk i (i + range) :: L, by simp [slicesLoopFuel, hcond, hL]⟩
    · exact ⟨[], by simp [slicesLoopFuel, hcond]⟩

/-- Characterization of a completed run of the loop: the k-th emitted
slice is [i + k step, i + k step + range], and a k-th slice exists
exactly when its start plus the range does not exceed dateMax. -/
theorem slicesLoopFuel_char (dateMax range step : ℚ) (hstep : 0 < step) :
    ∀ (fuel : ℕ) (i : ℚ) (L : List Slice),
      slicesLoopFuel dateMax range step fuel i = some L →
      (∀ (k : ℕ) (h : k < L.length),
          L.get ⟨k, h⟩ = Slice.mk (i + k * step) (i + k * step + range)) ∧
      (∀ k : ℕ, k < L.length ↔ i + k * step + range ≤ dateMax) := by
  intro fuel
  induction fuel with
  | zero =>
    intro i L hL
    by_cases hcond : i ≤ dateMax - range
    · simp [slicesLoopFuel, hcond] at hL
    · simp [slicesLoopFuel, hcond] at hL
      subst hL
      refine ⟨fun k h => absurd h (by simp), fun k => ?_⟩
      simp only [List.length_nil]
      constructor
      · omega
      · intro hk
        have hks : 0 ≤ (k : ℚ) * step :=
          mul_nonneg (Nat.cast_nonneg k) hstep.le
        linarith [not_le.mp hcond]
  | succ fuel ih =>
    intro i L hL
    by_cases hcond : i ≤ dateMax - range
    · simp only [slicesLoopFuel, if_pos hcond, Option.map_eq_some'] at hL
      obtain ⟨L2, hL2, hLc⟩ := hL
      obtain ⟨ihget, ihlen⟩ := ih (i + step) L2 hL2
      subst hLc
      constructor
      · intro k h
        match k with
        | 0 => simp
        | k + 1 =>
          have h2 : k < L2.length := by
            simpa using Nat.lt_of_succ_lt_succ (by simpa using h)
          have := ihget k h2
          simp only [List.get_cons_succ] at *
          rw [this]
          congr 1 <;> push_cast <;> ring
      · intro k
        match k with
        | 0 =>
          simp only [List.length_cons, Nat.cast_zero, zero_mul, add_zero]
          constructor
          · intro _; linarith
          · intro _; omega
        | k + 1 =>
          simp only [List.length_cons, Nat.succ_lt_succ_iff]
          rw [ihlen k]
          constructor <;> intro hx <;> [skip; skip] <;>
            (first
              | (have : i + step + (k : ℚ) * step = i + ((k : ℚ) + 1) * step := by ring
                 push_cast at *
                 linarith))
    · simp [slicesLoopFuel, hcond] at hL
      subst hL
      refine ⟨fun k h => absurd h (by simp), fun k => ?_⟩
      simp only [List.length_nil]
      constructor
      · omega
      · intro hk
        have hks : 0 ≤ (k : ℚ) * step :=
          mul_nonneg (Nat.cast_nonneg k) hstep.le
        linarith [not_le.mp hcond]

/-- C2: for a date envelope [dateMin, dateMax] and a positive step, the
loop terminates (some fuel completes it) and every completed run L
satisfies: the k-th snapshot is [dateMin + k step, dateMin + k step +
range], a k-th snapshot exists exactly when its start plus range does
not exceed dateMax (so the last snapshot is the one whose end does not
exceed dateMax), every snapshot has end = start + range, and
consecutive starts differ by step. -/
theorem slices_spec (dateMin dateMax range step : ℚ) (hstep : 0 < step) :
    (∃ fuel L, slices dateMin dateMax range step fuel = some L) ∧
    (∀ fuel L, slices dateMin dateMax range step fuel = some L →
      (∀ (k : ℕ) (h : k < L.length),
          L.get ⟨k, h⟩ = Slice.mk (dateMin + k * step) (dateMin + k * step + range)) ∧
      (∀ k : ℕ, k < L.length ↔ dateMin + k * step + range ≤ dateMax) ∧
      (∀ (k : ℕ) (h : k < L.length),
          (L.get ⟨k, h⟩).stop = (L.get ⟨k, h⟩).start + range) ∧
      (∀ (k : ℕ) (h1 : k + 1 < L.length) (h2 : k < L.length),
          (L.get ⟨k + 1, h1⟩).start = (L.get ⟨k, h2⟩).start + step)) := by
  constructor
  · obtain ⟨L, hL⟩ := slicesLoopFuel_terminates dateMax range step hstep
      (⌊(dateMax - range - dateMin) / step⌋ + 1).toNat dateMin le_rfl
    exact ⟨_, L, hL⟩
  · intro fuel L hL
    obtain ⟨hget, hlen⟩ := slicesLoopFuel_char dateMax range step hstep fuel dateMin L hL
    refine ⟨hget, hlen, ?_, ?_⟩
    · intro k h
      rw [hget k h]
    · intro k h1 h2
      rw [hget (k + 1) h1, hget k h2]
      push_cast
      ring

/-- C2 witness at dateMin 0, dateMax 10, range 2, step 5: the loop
completes and a concrete run (fuel 3) emits [0,2] and [5,7]. -/
theorem slices_spec_witness :
    (0 : ℚ) < 5 ∧
    (∃ fuel L, slices 0 10 2 5 fuel = some L) ∧
    slices 0 10 2 5 3 = some [Slice.mk 0 2, Slice.mk 5 7] := by
  refine ⟨by norm_num, (slices_spec 0 10 2 5 (by norm_num)).1, ?_⟩
  norm_num [slices, slicesLoopFuel]

/-- C9: a run with the range option 0 (an integer-format GEXF whose
dates span 0 to 10) sets windowRange = 0 and also windowStep = 0,
because the step falls back to the range option; the slice loop then
increments i by 0 while 0 <= 10 holds, so it never exits: for every
fuel the loop is still running (and it emits no completed snapshot
list, while pushing degenerate slices forever). -/
theorem slices_range_zero_loops :
    windowRange (some 0) 1 1 = 0 ∧
    windowStep (some 0) none (1/10) 1 = 0 ∧
    (∀ fuel : ℕ,
      slices 0 10 (windowRange (some 0) 1 1) (windowStep (some 0) none (1/10) 1) fuel
        = none) := by
  have hr : windowRange (some 0) 1 1 = 0 := by norm_num [windowRange]
  have hs : windowStep (some 0) none (1/10) 1 = 0 := by norm_num [windowStep]
  refine ⟨hr, hs, ?_⟩
  intro fuel
  rw [hr, hs]
  show slicesLoopFuel 10 0 0 fuel 0 = none
  induction fuel with
  | zero => norm_num [slicesLoopFuel]
  | succ fuel ih => norm_num [slicesLoopFuel, ih]

/-! ## Temporal layout (src/unnamed/part_002) -/

/-- A node as seen by the layout seeding: id plus optional coordinates
(absent when the node was not in the previous slice). -/
structure LNode where
  id : ℕ
  x : Option ℚ
  y : Option ℚ
deriving Repr, DecidableEq

/-- The snapshot graph used by the seeding pass: nodes plus edges given
as (source id, target id). -/
structure SeedGraph where
  nodes : List LNode
  edges : List (ℕ × ℕ)
deriving Repr

/-- JS truthiness of a numeric node attribute: present and nonzero
(the source tests !n.x, so an absent coordinate and the coordinate 0
are both treated as missing). -/
def truthy : Option ℚ → Bool
  | none => false
  | some v => decide (v ≠ 0)

/-- Modelled from the spec: the graph model's forEachNeighbor iterates
every node adjacent to the given one (the graph library is outside
src). Iteration order does not matter here because only a commutative
sum over the neighbors is computed. -/
def neighborsOf (g : SeedGraph) (nid : ℕ) : List LNode :=
  g.nodes.filter (fun m =>
    g.edges.any (fun e =>
      (decide (e.1 = nid) && decide (e.2 = m.id)) ||
      (decide (e.2 = nid) && decide (e.1 = m.id))))

/-- Transcription of the position seeding of renderLayout (non-sample
branch), part_002 lines 193-221, for one node: a node with truthy
inherited coordinates keeps them; otherwise the source accumulates
x += n2.x, y += n2.y, count++ over the neighbors with truthy
coordinates and stores {x, y} WITHOUT dividing by count (its own
comment says "Compute average of neighbors"); when count is 0 it draws
(random - 0.5) * spreading per axis. The random draws are supplied by
the rand oracle, and spreading (sqrt(order) * 100 in the source, an
irrational real in general) is passed as a parameter; the claims
settled here never reach the random branch. -/
def seedPosition (g : SeedGraph) (rand : ℕ → ℚ × ℚ) (spreading : ℚ)
    (n : LNode) : ℚ × ℚ :=
  if truthy n.x && truthy n.y then
    (n.x.getD 0, n.y.getD 0)
  else
    let acc := (neighborsOf g n.id).foldl
      (fun (a : ℚ × ℚ × ℕ) m =>
        if truthy m.x && truthy m.y then
          (a.1 + m.x.getD 0, a.2.1 + m.y.getD 0, a.2.2 + 1)
        else a)
      (0, 0, 0)
    if acc.2.2 = 0 then
      (((rand n.id).1 - 1/2) * spreading, ((rand n.id).2 - 1/2) * spreading)
    else
      (acc.1, acc.2.1)

/-- The claim's words: the arithmetic mean of the positions of the
neighbors that do have positions (none when no neighbor is
positioned). -/
def neighborMean (g : SeedGraph) (nid : ℕ) : Option (ℚ × ℚ) :=
  let pos := (neighborsOf g nid).filterMap
    (fun m =>
      if truthy m.x && truthy m.y then some (m.x.getD 0, m.y.getD 0)
      else none)
  if pos.length = 0 then none
  else some ((pos.map Prod.fst).sum / pos.length,
             (pos.map Prod.snd).sum / pos.length)

/-- Node 0 lacks coordinates and has two positioned neighbors, at
(1, 1) and (3, 3). -/
def seedExampleGraph : SeedGraph :=
  ⟨[⟨0, none, none⟩, ⟨1, some 1, some 1⟩, ⟨2, some 3, some 3⟩],
   [(0, 1), (0, 2)]⟩

/-- C4: the seeding pass assigns node 0 the SUM (4, 4) of its
positioned neighbors' coordinates, not their arithmetic mean (2, 2):
the source increments count but never divides by it, contradicting its
own comment "Compute average of neighbors". -/
theorem renderLayout_seed_sums_not_averages :
    seedPosition seedExampleGraph (fun _ => (1/2, 1/2)) 100 ⟨0, none, none⟩
      = ((4 : ℚ), (4 : ℚ)) ∧
    neighborMean seedExampleGraph 0 = some ((2 : ℚ), (2 : ℚ)) ∧
    ((4 : ℚ), (4 : ℚ)) ≠ ((2 : ℚ), (2 : ℚ)) := by
  refine ⟨?_, ?_, by norm_num [Prod.ext_iff]⟩
  · norm_num [seedPosition, seedExampleGraph, neighborsOf, truthy,
      List.filter, List.foldl]
  · norm_num [neighborMean, seedExampleGraph, neighborsOf, truthy,
      List.filter, List.filterMap]

/-! ### Node sizing (part_002 lines 148-164) -/

/-- An edge of the mixed snapshot graph. -/
structure MEdge where
  src : ℕ
  tgt : ℕ
  directed : Bool
deriving Repr, DecidableEq

/-- The snapshot graph used by the sizing pass. -/
structure MixedGraph where
  nodes : List ℕ
  edges : List MEdge
deriving Repr

/-- Modelled from the spec: inDegree over a mixed graph counts incoming
directed edges plus all undirected incident edges (the graph library
is outside src). -/
def inDegree (g : MixedGraph) (nid : ℕ) : ℕ :=
  (g.edges.filter (fun e =>
    if e.directed then decide (e.tgt = nid)
    else decide (e.src = nid) || decide (e.tgt = nid))).length

/-- The count of incoming directed edges alone. -/
def inDirectedCount (g : MixedGraph) (nid : ℕ) : ℕ :=
  (g.edges.filter (fun e => e.directed && decide (e.tgt = nid))).length

/-- The count of undirected incident edges alone. -/
def undirectedIncidentCount (g : MixedGraph) (nid : ℕ) : ℕ :=
  (g.edges.filter (fun e =>
    !e.directed && (decide (e.src = nid) || decide (e.tgt = nid)))).length

/-- The default fallback of the source, +options.x || d: a provided
value of 0 is falsy after numeric coercion and falls back to the
default. -/
def jsNumOr (o : Option ℚ) (d : ℚ) : ℚ :=
  match o with
  | some v => if v = 0 then d else v
  | none => d

/-- Same fallback for the natural-number exponent. The source allows an
arbitrary numeric exponent through Math.pow; the claims only concern
the default exponent 1, so the embedding uses a natural power. -/
def jsNatOr (o : Option ℕ) (d : ℕ) : ℕ :=
  match o with
  | some v => if v = 0 then d else v
  | none => d

/-- Transcription of setNodeSizes, part_002 lines 148-164: size =
sqrt(sizeMin + sizeFactor * inDegree ^ sizePower) with defaults
sizeMin 10, sizeFactor 2, sizePower 1. -/
noncomputable def setNodeSize (sizeMinOpt sizeFactorOpt : Option ℚ)
    (sizePowerOpt : Option ℕ) (g : MixedGraph) (nid : ℕ) : ℝ :=
  Real.sqrt ((jsNumOr sizeMinOpt 10 : ℝ) +
    (jsNumOr sizeFactorOpt 2 : ℝ) *
      (inDegree g nid : ℝ) ^ (jsNatOr sizePowerOpt 1))

/-- Splitting the mixed-degree filter by edge directedness. -/
theorem inDegree_filter_split (l : List MEdge) (nid : ℕ) :
    (l.filter (fun e =>
      if e.directed then decide (e.tgt = nid)
      else decide (e.src = nid) || decide (e.tgt = nid))).length
    = (l.filter (fun e => e.directed && decide (e.tgt = nid))).length
      + (l.filter (fun e =>
          !e.directed && (decide (e.src = nid) || decide (e.tgt = nid)))).length := by
  induction l with
  | nil => rfl
  | cons e t ih =>
    cases hdir : e.directed <;>
      by_cases hsrc : e.src = nid <;>
      by_cases htgt : e.tgt = nid <;>
        simp [List.filter_cons, hdir, hsrc, htgt, ih] <;> omega

/-- C5: with no sizing options (the defaults), every node of the
snapshot graph receives size sqrt(10 + 2 * inDegree ^ 1), where
inDegree counts incoming directed edges plus all undirected incident
edges; the assigned size is nonnegative. -/
theorem setNodeSizes_spec (g : MixedGraph) (nid : ℕ) (h : nid ∈ g.nodes) :
    setNodeSize none none none g nid
      = Real.sqrt (10 + 2 * (inDegree g nid : ℝ) ^ (1 : ℕ)) ∧
    inDegree g nid = inDirectedCount g nid + undirectedIncidentCount g nid ∧
    0 ≤ setNodeSize none none none g nid := by
  refine ⟨by norm_num [setNodeSize, jsNumOr, jsNatOr], ?_, Real.sqrt_nonneg _⟩
  exact inDegree_filter_split g.edges nid

/-- The witness graph: node 0 has two incoming directed edges and one
undirected incident edge, so inDegree 0 = 3 and its size is
sqrt(10 + 2 * 3) = 4. -/
def sizeExampleGraph : MixedGraph :=
  ⟨[0, 1, 2, 3], [⟨1, 0, true⟩, ⟨2, 0, true⟩, ⟨0, 3, false⟩]⟩

/-- C5 witness: evaluating the sizing at node 0 of the example graph. -/
theorem setNodeSizes_spec_witness :
    (0 ∈ sizeExampleGraph.nodes) ∧
    setNodeSize none none none sizeExampleGraph 0 = 4 := by
  refine ⟨by decide, ?_⟩
  have h := (setNodeSizes_spec sizeExampleGraph 0 (by decide)).1
  rw [h]
  have hdeg : inDegree sizeExampleGraph 0 = 3 := by decide
  rw [hdeg]
  rw [show (10 : ℝ) + 2 * ((3 : ℕ) : ℝ) ^ (1 : ℕ) = 4 ^ 2 by norm_num]
  exact Real.sqrt_sq (by norm_num)

/-! ## Rasterizer (src/render-video.js) -/

/-! ### Hillshading neighbor indexes (render-video.js lines 468-493)

The heatmap array has (width+1) * (height+1) entries. For pixel i the
source computes the four neighbor indexes below, reusing the central
pixel on the borders; the bottom test uses a strict comparison
i > (width+1) * ((height+1) - 1). -/

def iLeft (width i : ℕ) : ℕ := if i % (width + 1) = 0 then i else i - 1

def iRight (width i : ℕ) : ℕ := if i % (width + 1) = width then i else i + 1

def iTop (width i : ℕ) : ℕ := if i < width + 1 then i else i - (width + 1)

def iBottom (width height i : ℕ) : ℕ :=
  if (width + 1) * height < i then i else i + (width + 1)

/-- C7: for a 2 x 2 heatmap grid (width = height = 1, indexes 0..3),
the bottom-left pixel i = 2 is in the bottom row, but the strict test
2 > 2 fails, so the source computes i_bottom = 4, which is out of
bounds for the 4-entry array (the read yields undefined and dy becomes
NaN); its left, right and top neighbors are in bounds. The code's own
comment says border pixels reuse the central pixel instead. -/
theorem hillshading_bottom_left_out_of_bounds :
    2 < (1 + 1) * (1 + 1) ∧
    iBottom 1 1 2 = 4 ∧
    ¬ iBottom 1 1 2 < (1 + 1) * (1 + 1) ∧
    iLeft 1 2 = 2 ∧ iRight 1 2 = 3 ∧ iTop 1 2 = 0 := by
  decide

/-! ### Label selection (render-video.js lines 819-1041 and 1323-1353) -/

/-- A node as seen by the label pass. -/
structure RNode where
  id : ℕ
  x : ℚ
  y : ℚ
  size : ℚ
  label : String
deriving Repr, DecidableEq

/-- Transcription of the getNodesBySize comparator, render-video.js
lines 1334-1348: sort by size descending, ties by x descending,
returning 0 when both size and x are equal. -/
def cmpNodes (a b : RNode) : ℤ :=
  if a.size < b.size then 1
  else if b.size < a.size then -1
  else if a.x < b.x then 1
  else if b.x < a.x then -1
  else 0

/-- The comparator as a (total) Boolean order: a precedes-or-ties b. -/
def nodesLe (a b : RNode) : Bool := decide (cmpNodes a b ≤ 0)

/-- Stable insertion: the inserted element goes after every existing
element that precedes-or-ties it. -/
def insertStable {α : Type} (le : α → α → Bool) (a : α) : List α → List α
  | [] => [a]
  | b :: t => if le b a then b :: insertStable le a t else a :: b :: t

/-- A stable sort, modelling JS Array.prototype.sort, which is
specified to be stable; with a consistent comparator any stable sort
produces the same output. -/
def jsSort {α : Type} (le : α → α → Bool) (l : List α) : List α :=
  l.foldl (fun acc x => insertStable le x acc) []

/-- Transcription of getNodesBySize: sort with the comparator, then
reverse (the draw order is background first). -/
def getNodesBySize (l : List RNode) : List RNode := (jsSort nodesLe l).reverse

/-- getVisibleLabels evaluates labels on getNodesBySize reversed again,
so in size-descending order. -/
def labelEvalOrder (l : List RNode) : List RNode := (getNodesBySize l).reverse

/-- The labelDrawCount > 0 test; none models label_count = Infinity. -/
def countPos : Option ℤ → Bool
  | none => true
  | some z => decide (0 < z)

/-- The labelDrawCount decrement. -/
def decCount : Option ℤ → Option ℤ
  | none => none
  | some z => some (z - 1)

/-- One step of the greedy label selection, render-video.js lines
869-1032: while the quota is positive, test the label's capsule
against the collision bitmap; on collision drop it, otherwise stamp
the capsule (and the node disc) into the bitmap, decrement the quota
and keep the label. The collision test and the stamping are modelled
from the spec as deterministic functions of the bitmap and of the
node's attributes (the canvas rasterizer is outside src). -/
def stepLabel {β : Type} (collide : β → RNode → Bool) (stamp : β → RNode → β)
    (st : β × Option ℤ × List ℕ) (n : RNode) : β × Option ℤ × List ℕ :=
  if countPos st.2.1 then
    if collide st.1 n then st
    else (stamp st.1 n, decCount st.2.1, st.2.2 ++ [n.id])
  else st

/-- The visible-label set (as the list of kept node ids, in keep
order). -/
def getVisibleLabels {β : Type} (collide : β → RNode → Bool)
    (stamp : β → RNode → β) (init : β) (labelCount : Option ℤ)
    (l : List RNode) : List ℕ :=
  ((labelEvalOrder l).foldl (stepLabel collide stamp) (init, labelCount, [])).2.2

/-- The comparator order spelled out. -/
theorem nodesLe_iff (a b : RNode) :
    nodesLe a b = true ↔
      (b.size < a.size ∨ (a.size = b.size ∧ (b.x < a.x ∨ a.x = b.x))) := by
  unfold nodesLe cmpNodes
  split_ifs with h1 h2 h3 h4 <;> simp only [decide_eq_true_eq] <;>
    constructor <;> intro hc
  · norm_num at hc
  · rcases hc with h | ⟨he, _⟩
    · linarith
    · linarith [he.le]
  · exact Or.inl h2
  · norm_num
  · norm_num at hc
  · rcases hc with h | ⟨he, hx⟩
    · linarith
    · rcases hx with hx | hx
      · linarith
      · linarith [hx.le]
  · exact Or.inr ⟨le_antisymm (not_lt.mp h2) (not_lt.mp h1), Or.inl h4⟩
  · norm_num
  · exact Or.inr ⟨le_antisymm (not_lt.mp h2) (not_lt.mp h1),
      Or.inr (le_antisymm (not_lt.mp h4) (not_lt.mp h3))⟩
  · norm_num

/-- The comparator order is total. -/
theorem nodesLe_total (a b : RNode) : nodesLe a b = true ∨ nodesLe b a = true := by
  rw [nodesLe_iff, nodesLe_iff]
  rcases lt_trichotomy a.size b.size with h | h | h
  · exact Or.inr (Or.inl h)
  · rcases lt_trichotomy a.x b.x with hx | hx | hx
    · exact Or.inr (Or.inr ⟨h.symm, Or.inl hx⟩)
    · exact Or.inl (Or.inr ⟨h, Or.inr hx⟩)
    · exact Or.inl (Or.inr ⟨h, Or.inl hx⟩)
  · exact Or.inl (Or.inl h)

/-- The comparator order is transitive. -/
theorem nodesLe_trans (a b c : RNode) (hab : nodesLe a b = true)
    (hbc : nodesLe b c = true) : nodesLe a c = true := by
  rw [nodesLe_iff] at *
  rcases hab with h | ⟨he, hx⟩ <;> rcases hbc with h2 | ⟨he2, hx2⟩
  · exact Or.inl (h2.trans h)
  · exact Or.inl (he2 ▸ h)
  · exact Or.inl (h2.trans_eq he.symm)
  · refine Or.inr ⟨he.trans he2, ?_⟩
    rcases hx with hx | hx <;> rcases hx2 with hx2 | hx2
    · exact Or.inl (hx2.trans hx)
    · exact Or.inl (lt_of_eq_of_lt hx2.symm hx)
    · exact Or.inl (lt_of_lt_of_eq hx2 hx.symm)
    · exact Or.inr (hx.trans hx2)

/-- Inserting an element permutes with consing it. -/
theorem insertStable_perm {α : Type} (le : α → α → Bool) (a : α) :
    ∀ l : List α, (insertStable le a l).Perm (a :: l) := by
  intro l
  induction l with
  | nil => exact List.Perm.refl _
  | cons b t ih =>
    unfold insertStable
    by_cases hle : le b a = true
    · rw [if_pos hle]
      exact (List.Perm.cons b ih).trans (List.Perm.swap a b t)
    · rw [if_neg hle]

/-- Inserting preserves sortedness of the accumulator. -/
theorem insertStable_sorted {α : Type} (le : α → α → Bool)
    (htrans : ∀ a b c, le a b = true → le b c = true → le a c = true)
    (htotal : ∀ a b, le a b = true ∨ le b a = true) (a : α) :
    ∀ l : List α, l.Pairwise (fun x y => le x y = true) →
      (insertStable le a l).Pairwise (fun x y => le x y = true) := by
  intro l
  induction l with
  | nil =>
    intro _
    exact List.pairwise_singleton _ a
  | cons b t ih =>
    intro hp
    obtain ⟨hb, ht⟩ := List.pairwise_cons.mp hp
    unfold insertStable
    by_cases hle : le b a = true
    · rw [if_pos hle]
      refine List.pairwise_cons.mpr ⟨?_, ih ht⟩
      intro y hy
      rcases List.mem_cons.mp ((insertStable_perm le a t).mem_iff.mp hy) with h | h
      · exact h ▸ hle
      · exact hb y h
    · rw [if_neg hle]
      have hab : le a b = true := (htotal a b).resolve_right (fun h => hle h)
      refine List.pairwise_cons.mpr ⟨?_, hp⟩
      intro y hy
      rcases List.mem_cons.mp hy with h | h
      · exact h ▸ hab
      · exact htrans a b y hab (hb y h)

/-- The fold of stable insertions permutes with appending. -/
theorem foldl_insert_perm {α : Type} (le : α → α → Bool) :
    ∀ (l acc : List α),
      (l.foldl (fun acc x => insertStable le x acc) acc).Perm (acc ++ l) := by
  intro l
  induction l with
  | nil =>
    intro acc
    simp
  | cons x t ih =>
    intro acc
    have h1 := ih (insertStable le x acc)
    have h2 : (insertStable le x acc ++ t).Perm ((x :: acc) ++ t) :=
      (insertStable_perm le x acc).append_right t
    have h3 : ((x :: acc) ++ t).Perm (acc ++ x :: t) := by
      simpa using List.perm_middle.symm
    exact (h1.trans h2).trans h3

/-- The stable sort is a permutation of the input. -/
theorem jsSort_perm {α : Type} (le : α → α → Bool) (l : List α) :
    (jsSort le l).Perm l := by
  simpa [jsSort] using foldl_insert_perm le l []

/-- The fold of stable insertions preserves sortedness. -/
theorem foldl_insert_sorted {α : Type} (le : α → α → Bool)
    (htrans : ∀ a b c, le a b = true → le b c = true → le a c = true)
    (htotal : ∀ a b, le a b = true ∨ le b a = true) :
    ∀ (l acc : List α), acc.Pairwise (fun x y => le x y = true) →
      (l.foldl (fun acc x => insertStable le x acc) acc).Pairwise
        (fun x y => le x y = true) := by
  intro l
  induction l with
  | nil =>
    intro acc h
    simpa using h
  | cons x t ih =>
    intro acc h
    exact ih (insertStable le x acc) (insertStable_sorted le htrans htotal x acc h)

/-- The stable sort is sorted. -/
theorem jsSort_sorted {α : Type} (le : α → α → Bool)
    (htrans : ∀ a b c, le a b = true → le b c = true → le a c = true)
    (htotal : ∀ a b, le a b = true ∨ le b a = true) (l : List α) :
    (jsSort le l).Pairwise (fun x y => le x y = true) :=
  foldl_insert_sorted le htrans htotal l [] List.Pairwise.nil

/-- Two sorted permutations of each other agree, provided the order is
antisymmetric on the elements of the first. -/
theorem sortedPermEq {α : Type} (le : α → α → Bool) :
    ∀ (l1 l2 : List α), l1.Perm l2 →
      l1.Pairwise (fun x y => le x y = true) →
      l2.Pairwise (fun x y => le x y = true) →
      (∀ a ∈ l1, ∀ b ∈ l1, le a b = true → le b a = true → a = b) →
      l1 = l2 := by
  intro l1
  induction l1 with
  | nil =>
    intro l2 hperm _ _ _
    exact (List.Perm.eq_nil hperm.symm).symm
  | cons a t1 ih =>
    intro l2 hperm hp1 hp2 hanti
    cases l2 with
    | nil => exact absurd hperm.eq_nil (by simp)
    | cons b t2 =>
      by_cases hab : a = b
      · subst hab
        have ht : t1.Perm t2 := hperm.cons_inv
        have := ih t2 ht (List.pairwise_cons.mp hp1).2 (List.pairwise_cons.mp hp2).2
          (fun x hx y hy => hanti x (List.mem_cons_of_mem a hx) y (List.mem_cons_of_mem a hy))
        rw [this]
      · have ha2 : a ∈ b :: t2 := hperm.mem_iff.mp (List.mem_cons_self a t1)
        have hat2 : a ∈ t2 := by
          rcases List.mem_cons.mp ha2 with h | h
          · exact absurd h hab
          · exact h
        have hb1 : b ∈ a :: t1 := hperm.mem_iff.mpr (List.mem_cons_self b t2)
        have hbt1 : b ∈ t1 := by
          rcases List.mem_cons.mp hb1 with h | h
          · exact absurd h.symm hab
          · exact h
        have hab1 : le a b = true := (List.pairwise_cons.mp hp1).1 b hbt1
        have hba : le b a = true := (List.pairwise_cons.mp hp2).1 a hat2
        exact absurd (hanti a (List.mem_cons_self a t1) b hb1 hab1 hba) hab

/-- C8 (amended): the visible-label selection is invariant under
reordering the input nodes, for any deterministic collision test and
stamping function and any label quota, PROVIDED no two distinct nodes
share both size and x: the sort is total on (size descending, x
descending) and the greedy pass is a function of the sorted sequence.
(The counterexample shows the proviso is necessary: two same-size
nodes with equal x keep their input order in the stable sort.) -/
theorem getVisibleLabels_order_invariant {β : Type} (collide : β → RNode → Bool)
    (stamp : β → RNode → β) (init : β) (labelCount : Option ℤ)
    (l1 l2 : List RNode) (hperm : l1.Perm l2)
    (hkey : ∀ a ∈ l1, ∀ b ∈ l1, a.size = b.size → a.x = b.x → a = b) :
    getVisibleLabels collide stamp init labelCount l1
      = getVisibleLabels collide stamp init labelCount l2 := by
  have hs : jsSort nodesLe l1 = jsSort nodesLe l2 := by
    apply sortedPermEq nodesLe
    · exact (jsSort_perm nodesLe l1).trans (hperm.trans (jsSort_perm nodesLe l2).symm)
    · exact jsSort_sorted nodesLe nodesLe_trans nodesLe_total l1
    · exact jsSort_sorted nodesLe nodesLe_trans nodesLe_total l2
    · intro x hx y hy hxy hyx
      have hx1 : x ∈ l1 := (jsSort_perm nodesLe l1).mem_iff.mp hx
      have hy1 : y ∈ l1 := (jsSort_perm nodesLe l1).mem_iff.mp hy
      rw [nodesLe_iff] at hxy hyx
      have hsz : x.size = y.size := by
        rcases hxy with h | ⟨he, _⟩ <;> rcases hyx with h2 | ⟨he2, _⟩
        · exact absurd h2 (lt_asymm h)
        · exact he2.symm
        · exact he
        · exact he
      have hxx : x.x = y.x := by
        rcases hxy with h | ⟨_, hc⟩
        · rcases hyx with h2 | ⟨he2, _⟩
          · exact absurd h2 (lt_asymm h)
          · rw [he2] at h
            exact absurd h (lt_irrefl _)
        · rcases hyx with h2 | ⟨_, hc2⟩
          · rw [hsz] at h2
            exact absurd h2 (lt_irrefl _)
          · rcases hc with hlt | heq
            · rcases hc2 with hlt2 | heq2
              · exact absurd hlt2 (lt_asymm hlt)
              · exact heq2.symm
            · exact heq
      exact hkey x hx1 y hy1 hsz hxx
  unfold getVisibleLabels labelEvalOrder getNodesBySize
  rw [hs]

/-- Two nodes of equal size and distinct x. -/
def labelNodeA : RNode := ⟨0, 0, 0, 5, "A"⟩

/-- See labelNodeA. -/
def labelNodeB : RNode := ⟨1, 1, 0, 5, "B"⟩

/-- C8 witness: swapping two same-size nodes with distinct x leaves the
visible-label list unchanged. -/
theorem getVisibleLabels_order_invariant_witness :
    [labelNodeA, labelNodeB].Perm [labelNodeB, labelNodeA] ∧
    getVisibleLabels (fun bm _ => bm) (fun _ _ => true) false (some 2)
        [labelNodeA, labelNodeB]
      = getVisibleLabels (fun bm _ => bm) (fun _ _ => true) false (some 2)
        [labelNodeB, labelNodeA] := by
  have hperm : [labelNodeA, labelNodeB].Perm [labelNodeB, labelNodeA] :=
    List.Perm.swap labelNodeB labelNodeA []
  refine ⟨hperm, getVisibleLabels_order_invariant _ _ _ _ _ _ hperm ?_⟩
  intro a ha b hb hsz hx
  fin_cases ha <;> fin_cases hb <;>
    first
      | rfl
      | (exfalso; norm_num [labelNodeA, labelNodeB] at hx)

/-- Two nodes of equal size and EQUAL x (distinct y and labels). -/
def labelNodeC : RNode := ⟨0, 0, 0, 5, "A"⟩

/-- See labelNodeC. -/
def labelNodeD : RNode := ⟨1, 0, 1, 5, "B"⟩

/-- C8 counterexample: with two nodes of the same size AND the same x,
the comparator returns 0 and the stable sort keeps the input order, so
with a collision model in which the first kept label blocks every
later one, the two input orders produce different visible-label sets
([0] versus [1]): the selection is NOT a function of the size order
and the bitmap alone when the x tie-break is also a tie. -/
theorem getVisibleLabels_order_dependent_on_equal_x :
    [labelNodeC, labelNodeD].Perm [labelNodeD, labelNodeC] ∧
    labelNodeC.size = labelNodeD.size ∧
    getVisibleLabels (fun bm _ => bm) (fun _ _ => true) false (some 2)
        [labelNodeC, labelNodeD] = [0] ∧
    getVisibleLabels (fun bm _ => bm) (fun _ _ => true) false (some 2)
        [labelNodeD, labelNodeC] = [1] ∧
    ([0] : List ℕ) ≠ [1] := by
  refine ⟨List.Perm.swap labelNodeD labelNodeC [], rfl, ?_, ?_, by decide⟩
  · norm_num [getVisibleLabels, labelEvalOrder, getNodesBySize, jsSort,
      insertStable, nodesLe, cmpNodes, labelNodeC, labelNodeD, stepLabel,
      countPos, decCount]
  · norm_num [getVisibleLabels, labelEvalOrder, getNodesBySize, jsSort,
      insertStable, nodesLe, cmpNodes, labelNodeC, labelNodeD, stepLabel,
      countPos, decCount]

/-! ### Voronoi field (render-video.js lines 1355-1469)

Embedding conventions. The reduction ratio (named ratio in the source)
is written rr. All real-valued comparisons of the source involve the
Euclidean distance d = sqrt(dsq); they are encoded exactly over ℚ by
squaring: for 0 <= d, d < r iff (0 < r and dsq < r^2), d <= r iff
(0 <= r and dsq <= r^2), and, for the halo case d > nsize with
vr * rr > 0, 255 * (d - nsize) / (vr * rr) < m iff (0 < R and
255^2 * dsq < R^2) where R = m * (vr * rr) + 255 * nsize. The stored
byte floor(255 * dmod) is the least j with 255 * dmod < j + 1,
computed by a bounded search. -/

/-- A node as seen by the voronoi pass. -/
structure VNode where
  x : ℚ
  y : ℚ
  size : ℚ
deriving Repr, DecidableEq

/-- nsize = ratio * n.size * node_size with node_size = 1. -/
def nsizeOf (rr : ℚ) (n : VNode) : ℚ := rr * n.size

/-- range = nsize + options.voronoi_range * ratio. -/
def vRangeOf (vr rr : ℚ) (n : VNode) : ℚ := nsizeOf rr n + vr * rr

/-- The squared distance between the node center (ratio * n.x,
ratio * n.y) and the pixel. -/
def dsqOf (rr : ℚ) (n : VNode) (p : ℕ × ℕ) : ℚ :=
  (rr * n.x - (p.1 : ℚ)) ^ 2 + (rr * n.y - (p.2 : ℚ)) ^ 2

/-- The pixel is visited by the node's double loop (x from
max(0, floor(nx - range)) to min(width, floor(nx + range)), same for
y) and satisfies d < range. -/
def claimsPix (vr rr : ℚ) (width height : ℕ) (n : VNode) (p : ℕ × ℕ) : Bool :=
  decide (max 0 ⌊rr * n.x - vRangeOf vr rr n⌋ ≤ (p.1 : ℤ)) &&
  decide ((p.1 : ℤ) ≤ min (width : ℤ) ⌊rr * n.x + vRangeOf vr rr n⌋) &&
  decide (max 0 ⌊rr * n.y - vRangeOf vr rr n⌋ ≤ (p.2 : ℤ)) &&
  decide ((p.2 : ℤ) ≤ min (height : ℤ) ⌊rr * n.y + vRangeOf vr rr n⌋) &&
  decide (0 < vRangeOf vr rr n) &&
  decide (dsqOf rr n p < vRangeOf vr rr n ^ 2)

/-- d <= nsize: the pixel is inside the node radius (dmod = 0). -/
def insideNode (rr : ℚ) (n : VNode) (p : ℕ × ℕ) : Bool :=
  decide (0 ≤ nsizeOf rr n) && decide (dsqOf rr n p ≤ nsizeOf rr n ^ 2)

/-- The source comparison 255 * dmod < m, where dmod = 0 inside the
node and (d - nsize) / (voronoi_range * ratio) in the halo. -/
def dmodLt (vr rr : ℚ) (n : VNode) (p : ℕ × ℕ) (m : ℚ) : Bool :=
  if insideNode rr n p then decide (0 < m)
  else
    decide (0 < m * (vr * rr) + 255 * nsizeOf rr n) &&
    decide (255 ^ 2 * dsqOf rr n p < (m * (vr * rr) + 255 * nsizeOf rr n) ^ 2)

/-- Bounded search for the least index at or after j satisfying pred,
up to the given fuel (returns j + fuel when none is found). -/
def u8find (pred : ℕ → Bool) : ℕ → ℕ → ℕ
  | j, 0 => j
  | j, fuel + 1 => if pred j then j else u8find pred (j + 1) fuel

/-- The stored byte floor(255 * dmod): the least j with
255 * dmod < j + 1 (it is at most 254 for a claimed pixel). -/
def u8dist (vr rr : ℚ) (n : VNode) (p : ℕ × ℕ) : ℕ :=
  u8find (fun j => dmodLt vr rr n p ((j : ℚ) + 1)) 0 255

/-- One node's visit of one pixel, render-video.js lines 1442-1454:
if the pixel has no owner yet (vid 0), claim it unconditionally;
otherwise claim it only when 255 * dmod is strictly below the stored
byte. The state is (owner vid, stored byte). -/
def pixUpdate (vr rr : ℚ) (width height : ℕ) (c : ℕ × VNode) (p : ℕ × ℕ)
    (st : ℕ × ℕ) : ℕ × ℕ :=
  if claimsPix vr rr width height c.2 p then
    if st.1 = 0 then (c.1 + 1, u8dist vr rr c.2 p)
    else if dmodLt vr rr c.2 p (st.2 : ℚ) then (c.1 + 1, u8dist vr rr c.2 p)
    else st
  else st

/-- The full voronoi pass: nodes are processed in iteration order with
vids 1, 2, ... (the source unshifts null so that vid 0 means "no
owner"); the pixel maps start at (0, 255). The nested x/y loops of the
source write each pixel independently, so the state is a function of
the pixel. -/
def getVoronoiData (vr rr : ℚ) (width height : ℕ) (nodes : List VNode) :
    (ℕ × ℕ) → ℕ × ℕ :=
  nodes.enum.foldl
    (fun st c p => pixUpdate vr rr width height c p (st p))
    (fun _ => (0, 255))

/-- The same pass restricted to a single pixel. -/
def voronoiAtPixel (vr rr : ℚ) (width height : ℕ) (cl : List (ℕ × VNode))
    (p : ℕ × ℕ) : ℕ × ℕ :=
  cl.foldl (fun st c => pixUpdate vr rr width height c p st) (0, 255)

/-- The map-level fold agrees pointwise with the single-pixel fold. -/
theorem getVoronoiData_apply (vr rr : ℚ) (width height : ℕ)
    (nodes : List VNode) (p : ℕ × ℕ) :
    getVoronoiData vr rr width height nodes p
      = voronoiAtPixel vr rr width height nodes.enum p := by
  unfold getVoronoiData voronoiAtPixel
  generalize nodes.enum = cl
  suffices h : ∀ (cl : List (ℕ × VNode)) (f : (ℕ × ℕ) → ℕ × ℕ),
      (cl.foldl (fun st c p => pixUpdate vr rr width height c p (st p)) f) p
        = cl.foldl (fun st c => pixUpdate vr rr width height c p st) (f p) by
    exact h cl _
  intro cl
  induction cl with
  | nil => intro f; rfl
  | cons c t ih => intro f; exact ih _

/-- The bounded search never exceeds j + fuel. -/
theorem u8find_le (pred : ℕ → Bool) :
    ∀ (fuel j : ℕ), u8find pred j fuel ≤ j + fuel := by
  intro fuel
  induction fuel with
  | zero => intro j; simp [u8find]
  | succ fuel ih =>
    intro j
    unfold u8find
    by_cases hp : pred j = true
    · rw [if_pos hp]; omega
    · rw [if_neg hp]
      have := ih (j + 1)
      omega

/-- Everything strictly below the search result fails the predicate. -/
theorem u8find_false_below (pred : ℕ → Bool) :
    ∀ (fuel j k : ℕ), j ≤ k → k < u8find pred j fuel → pred k = false := by
  intro fuel
  induction fuel with
  | zero =>
    intro j k hjk hk
    simp [u8find] at hk
    omega
  | succ fuel ih =>
    intro j k hjk hk
    unfold u8find at hk
    by_cases hp : pred j = true
    · rw [if_pos hp] at hk; omega
    · rw [if_neg hp] at hk
      rcases Nat.eq_or_lt_of_le hjk with h | h
      · subst h
        exact Bool.not_eq_true _ ▸ (by simpa using hp)
      · exact ih (j + 1) k h hk

/-- The search result satisfies the predicate unless the fuel ran out. -/
theorem u8find_pred_or_exhaust (pred : ℕ → Bool) :
    ∀ (fuel j : ℕ), pred (u8find pred j fuel) = true ∨ u8find pred j fuel = j + fuel := by
  intro fuel
  induction fuel with
  | zero => intro j; right; rfl
  | succ fuel ih =>
    intro j
    unfold u8find
    by_cases hp : pred j = true
    · rw [if_pos hp]; exact Or.inl hp
    · rw [if_neg hp]
      rcases ih (j + 1) with h | h
      · exact Or.inl h
      · right; omega

/-- For a claimed pixel outside the node radius, the halo width
voronoi_range * ratio is positive. -/
theorem claims_vrr_pos (vr rr : ℚ) (width height : ℕ) (n : VNode) (p : ℕ × ℕ)
    (hcl : claimsPix vr rr width height n p = true)
    (hni : insideNode rr n p = false) : 0 < vr * rr := by
  simp only [claimsPix, Bool.and_eq_true, decide_eq_true_eq] at hcl
  obtain ⟨⟨-, hrng⟩, hdsq⟩ := hcl
  have hni2 : ¬ (insideNode rr n p = true) := by simp [hni]
  simp only [insideNode, Bool.and_eq_true, decide_eq_true_eq, not_and,
    not_le] at hni2
  rcases le_or_lt 0 (nsizeOf rr n) with hns | hns
  · have hgt : nsizeOf rr n ^ 2 < dsqOf rr n p := hni2 hns
    have h2 : nsizeOf rr n ^ 2 < vRangeOf vr rr n ^ 2 := lt_trans hgt hdsq
    have h3 : nsizeOf rr n < vRangeOf vr rr n := by nlinarith
    have h4 : vRangeOf vr rr n = nsizeOf rr n + vr * rr := rfl
    linarith [h4 ▸ h3]
  · have h4 : vRangeOf vr rr n = nsizeOf rr n + vr * rr := rfl
    rw [h4] at hrng
    linarith

/-- For a claimed pixel, 255 * dmod < 0 never holds. -/
theorem dmodLt_zero (vr rr : ℚ) (width height : ℕ) (n : VNode) (p : ℕ × ℕ)
    (hcl : claimsPix vr rr width height n p = true) :
    dmodLt vr rr n p 0 = false := by
  by_cases hin : insideNode rr n p = true
  · simp [dmodLt, hin]
  · have hni : insideNode rr n p = false := by simpa using hin
    have hni2 : ¬ (insideNode rr n p = true) := by simp [hni]
    have hns2 := hni2
    simp only [insideNode, Bool.and_eq_true, decide_eq_true_eq, not_and,
      not_le] at hns2
    rw [dmodLt, if_neg hni2]
    rcases le_or_lt 0 (nsizeOf rr n) with hns | hns
    · have hgt : nsizeOf rr n ^ 2 < dsqOf rr n p := hns2 hns
      have hle : ¬ (255 ^ 2 * dsqOf rr n p
          < ((0 : ℚ) * (vr * rr) + 255 * nsizeOf rr n) ^ 2) := by
        push_neg
        nlinarith
      simp only [hle]
      simp
    · have h0 : ¬ ((0 : ℚ) < 0 * (vr * rr) + 255 * nsizeOf rr n) := by
        push_neg
        nlinarith
      simp [h0]
      intro hpos
      nlinarith

/-- For a claimed pixel, 255 * dmod < 255 always holds. -/
theorem dmodLt_top (vr rr : ℚ) (width height : ℕ) (n : VNode) (p : ℕ × ℕ)
    (hcl : claimsPix vr rr width height n p = true) :
    dmodLt vr rr n p 255 = true := by
  by_cases hin : insideNode rr n p = true
  · simp [dmodLt, hin]
  · have hni : insideNode rr n p = false := by simpa using hin
    have hni2 : ¬ (insideNode rr n p = true) := by simp [hni]
    simp only [claimsPix, Bool.and_eq_true, decide_eq_true_eq] at hcl
    obtain ⟨⟨-, hrng⟩, hdsq⟩ := hcl
    have h4 : vRangeOf vr rr n = nsizeOf rr n + vr * rr := rfl
    rw [h4] at hrng hdsq
    rw [dmodLt, if_neg hni2]
    have h1 : (0 : ℚ) < 255 * (vr * rr) + 255 * nsizeOf rr n := by nlinarith
    have h2 : 255 ^ 2 * dsqOf rr n p
        < ((255 : ℚ) * (vr * rr) + 255 * nsizeOf rr n) ^ 2 := by nlinarith
    simp [h1, h2]

/-- For a claimed pixel, the comparison 255 * dmod < m is monotone in
m. -/
theorem dmodLt_mono (vr rr : ℚ) (width height : ℕ) (n : VNode) (p : ℕ × ℕ)
    (hcl : claimsPix vr rr width height n p = true) (m m2 : ℚ) (hm : m ≤ m2)
    (h : dmodLt vr rr n p m = true) : dmodLt vr rr n p m2 = true := by
  by_cases hin : insideNode rr n p = true
  · simp only [dmodLt, if_pos hin, decide_eq_true_eq] at h ⊢
    linarith
  · have hni : insideNode rr n p = false := by simpa using hin
    have hni2 : ¬ (insideNode rr n p = true) := by simp [hni]
    have hvrr : 0 < vr * rr := claims_vrr_pos vr rr width height n p
      (by simp only [claimsPix, Bool.and_eq_true, decide_eq_true_eq] at hcl ⊢
          simp [claimsPix, hcl.1.1, hcl.1.2, hcl.2]) hni
    rw [dmodLt, if_neg hni2] at h ⊢
    simp only [Bool.and_eq_true, decide_eq_true_eq] at h ⊢
    obtain ⟨h1, h2⟩ := h
    have hRle : m * (vr * rr) + 255 * nsizeOf rr n
        ≤ m2 * (vr * rr) + 255 * nsizeOf rr n := by nlinarith
    exact ⟨by linarith, by nlinarith⟩

/-- For a claimed pixel, the stored byte is at most 254. -/
theorem u8dist_le (vr rr : ℚ) (width height : ℕ) (n : VNode) (p : ℕ × ℕ)
    (hcl : claimsPix vr rr width height n p = true) :
    u8dist vr rr n p ≤ 254 := by
  have h254 : dmodLt vr rr n p (((254 : ℕ) : ℚ) + 1) = true := by
    have h := dmodLt_top vr rr width height n p hcl
    have hc : (((254 : ℕ) : ℚ) + 1) = 255 := by norm_num
    rw [hc]
    exact h
  have hle := u8find_le (fun j => dmodLt vr rr n p ((j : ℚ) + 1)) 255 0
  by_contra hgt
  push_neg at hgt
  have heq : u8find (fun j => dmodLt vr rr n p ((j : ℚ) + 1)) 0 255 = 255 := by
    have : u8dist vr rr n p = u8find (fun j => dmodLt vr rr n p ((j : ℚ) + 1)) 0 255 := rfl
    omega
  have hfb := u8find_false_below (fun j => dmodLt vr rr n p ((j : ℚ) + 1)) 255 0 254
    (Nat.zero_le _) (by omega)
  simp only at hfb
  rw [hfb] at h254
  exact Bool.false_ne_true h254

/-- For a claimed pixel, the source comparison 255 * dmod < m against a
natural bound m is exactly the comparison of the stored bytes. -/
theorem dmodLt_iff_u8_lt (vr rr : ℚ) (width height : ℕ) (n : VNode)
    (p : ℕ × ℕ) (hcl : claimsPix vr rr width height n p = true) (m : ℕ) :
    dmodLt vr rr n p (m : ℚ) = true ↔ u8dist vr rr n p < m := by
  constructor
  · intro h
    by_contra hlt
    push_neg at hlt
    match m, h, hlt with
    | 0, h, hlt =>
      rw [Nat.cast_zero, dmodLt_zero vr rr width height n p hcl] at h
      exact Bool.false_ne_true h
    | k + 1, h, hlt =>
      have hk : k < u8dist vr rr n p := by omega
      have hfb := u8find_false_below (fun j => dmodLt vr rr n p ((j : ℚ) + 1)) 255 0 k
        (Nat.zero_le _) hk
      simp only at hfb
      have hcast : ((k + 1 : ℕ) : ℚ) = (k : ℚ) + 1 := by push_cast; ring
      rw [hcast, hfb] at h
      exact Bool.false_ne_true h
  · intro h
    have hu8 : dmodLt vr rr n p ((u8dist vr rr n p : ℚ) + 1) = true := by
      rcases u8find_pred_or_exhaust (fun j => dmodLt vr rr n p ((j : ℚ) + 1)) 255 0 with hp | hex
      · simpa using hp
      · exfalso
        have hle := u8dist_le vr rr width height n p hcl
        have : u8dist vr rr n p = u8find (fun j => dmodLt vr rr n p ((j : ℚ) + 1)) 0 255 := rfl
        omega
    refine dmodLt_mono vr rr width height n p hcl _ _ ?_ hu8
    have : u8dist vr rr n p + 1 ≤ m := h
    exact_mod_cast this

/-- Per-pixel characterization of the voronoi fold over an arbitrary
processed prefix: either no element claims the pixel and the state is
the initial (0, 255), or the state records the FIRST claimant of
minimal stored byte (every other claimant has a byte at least as
large, and every claimant listed before it has a strictly larger
byte). -/
theorem voronoiAtPixel_char (vr rr : ℚ) (width height : ℕ) (p : ℕ × ℕ) :
    ∀ cl : List (ℕ × VNode),
      (cl.filter (fun e => claimsPix vr rr width height e.2 p) = [] ∧
        voronoiAtPixel vr rr width height cl p = (0, 255)) ∨
      (∃ l1 c l2,
        cl.filter (fun e => claimsPix vr rr width height e.2 p) = l1 ++ c :: l2 ∧
        (∀ d ∈ cl.filter (fun e => claimsPix vr rr width height e.2 p),
            u8dist vr rr c.2 p ≤ u8dist vr rr d.2 p) ∧
        (∀ d ∈ l1, u8dist vr rr c.2 p < u8dist vr rr d.2 p) ∧
        voronoiAtPixel vr rr width height cl p
          = (c.1 + 1, u8dist vr rr c.2 p)) := by
  intro cl
  induction cl using List.reverseRecOn with
  | nil => left; exact ⟨rfl, rfl⟩
  | append_singleton l a ih =>
    have hfold : voronoiAtPixel vr rr width height (l ++ [a]) p
        = pixUpdate vr rr width height a p (voronoiAtPixel vr rr width height l p) := by
      simp [voronoiAtPixel, List.foldl_append]
    by_cases hca : claimsPix vr rr width height a.2 p = true
    · have hfilter : (l ++ [a]).filter (fun e => claimsPix vr rr width height e.2 p)
          = l.filter (fun e => claimsPix vr rr width height e.2 p) ++ [a] := by
        simp [List.filter_append, hca]
      rcases ih with ⟨hemp, hst⟩ | ⟨l1, c, l2, hdec, hmin, hstrict, hst⟩
      · right
        refine ⟨[], a, [], ?_, ?_, ?_, ?_⟩
        · rw [hfilter, hemp]
        · intro d hd
          rw [hfilter, hemp] at hd
          simp at hd
          subst hd
          exact le_refl _
        · intro d hd
          simp at hd
        · rw [hfold, hst]
          simp [pixUpdate, hca]
      · by_cases hlt : dmodLt vr rr a.2 p ((u8dist vr rr c.2 p : ℕ) : ℚ) = true
        · have hu8 : u8dist vr rr a.2 p < u8dist vr rr c.2 p :=
            (dmodLt_iff_u8_lt vr rr width height a.2 p hca _).mp hlt
          right
          refine ⟨l1 ++ c :: l2, a, [], ?_, ?_, ?_, ?_⟩
          · rw [hfilter, hdec]
          · intro d hd
            rw [hfilter] at hd
            rcases List.mem_append.mp hd with hd | hd
            · exact le_of_lt (lt_of_lt_of_le hu8 (hmin d hd))
            · simp at hd
              subst hd
              exact le_refl _
          · intro d hd
            have hd2 : d ∈ l.filter (fun e => claimsPix vr rr width height e.2 p) := by
              rw [hdec]; exact hd
            exact lt_of_lt_of_le hu8 (hmin d hd2)
          · rw [hfold, hst]
            simp [pixUpdate, hca, hlt]
        · have hu8 : u8dist vr rr c.2 p ≤ u8dist vr rr a.2 p := by
            by_contra hcon
            push_neg at hcon
            rw [(dmodLt_iff_u8_lt vr rr width height a.2 p hca _).mpr hcon] at hlt
            exact hlt rfl
          right
          refine ⟨l1, c, l2 ++ [a], ?_, ?_, ?_, ?_⟩
          · rw [hfilter, hdec]
            simp
          · intro d hd
            rw [hfilter] at hd
            rcases List.mem_append.mp hd with hd | hd
            · exact hmin d hd
            · simp at hd
              subst hd
              exact hu8
          · exact hstrict
          · rw [hfold, hst]
            simp [pixUpdate, hca, hlt]
    · have hfilter : (l ++ [a]).filter (fun e => claimsPix vr rr width height e.2 p)
          = l.filter (fun e => claimsPix vr rr width height e.2 p) := by
        simp [List.filter_append, hca]
      have hstep : voronoiAtPixel vr rr width height (l ++ [a]) p
          = voronoiAtPixel vr rr width height l p := by
        rw [hfold]
        simp [pixUpdate, hca]
      rcases ih with ⟨hemp, hst⟩ | ⟨l1, c, l2, hdec, hmin, hstrict, hst⟩
      · left
        exact ⟨by rw [hfilter]; exact hemp, by rw [hstep]; exact hst⟩
      · right
        refine ⟨l1, c, l2, by rw [hfilter]; exact hdec, ?_, hstrict,
          by rw [hstep]; exact hst⟩
        intro d hd
        rw [hfilter] at hd
        exact hmin d hd

/-- C6: vids are assigned in node iteration order starting at 1 (node
at index k gets vid k + 1; 0 means no owner). For every pixel, either
no node claims it and the recorded state is (0, 255), or the recorded
owner is the vid of the FIRST claimant whose stored byte (the u8
conversion of the modified distance: 0 inside the node radius, else
(d - size) / voronoi_range) is minimal among all claimants — every
claimant has a byte at least as large, and every earlier claimant a
strictly larger byte, so ties at equal stored byte go to the first
writer. Consequently the owner vid is 0 or the vid of exactly one
node. -/
theorem getVoronoiData_spec (vr rr : ℚ) (width height : ℕ)
    (nodes : List VNode) (p : ℕ × ℕ) :
    ((nodes.enum.filter (fun e => claimsPix vr rr width height e.2 p) = [] ∧
        getVoronoiData vr rr width height nodes p = (0, 255)) ∨
      (∃ l1 c l2,
        nodes.enum.filter (fun e => claimsPix vr rr width height e.2 p)
          = l1 ++ c :: l2 ∧
        (∀ d ∈ nodes.enum.filter (fun e => claimsPix vr rr width height e.2 p),
            u8dist vr rr c.2 p ≤ u8dist vr rr d.2 p) ∧
        (∀ d ∈ l1, u8dist vr rr c.2 p < u8dist vr rr d.2 p) ∧
        getVoronoiData vr rr width height nodes p
          = (c.1 + 1, u8dist vr rr c.2 p) ∧
        c.1 < nodes.length ∧ nodes[c.1]? = some c.2))
    ∧ ((getVoronoiData vr rr width height nodes p).1 = 0 ∨
        ∃! k : ℕ, k < nodes.length ∧
          (getVoronoiData vr rr width height nodes p).1 = k + 1) := by
  have hchar := voronoiAtPixel_char vr rr width height p nodes.enum
  rw [getVoronoiData_apply]
  rcases hchar with ⟨hemp, hst⟩ | ⟨l1, c, l2, hdec, hmin, hstrict, hst⟩
  · exact ⟨Or.inl ⟨hemp, hst⟩, Or.inl (by rw [hst])⟩
  · have hmem : c ∈ nodes.enum := by
      have hcf : c ∈ nodes.enum.filter (fun e => claimsPix vr rr width height e.2 p) := by
        rw [hdec]
        exact List.mem_append.mpr (Or.inr (List.mem_cons_self c l2))
      exact List.mem_of_mem_filter hcf
    have hget : nodes[c.1]? = some c.2 := List.mem_enum_iff_getElem?.mp hmem
    obtain ⟨hlen, -⟩ := List.getElem?_eq_some.mp hget
    refine ⟨Or.inr ⟨l1, c, l2, hdec, hmin, hstrict, hst, hlen, hget⟩, Or.inr ?_⟩
    refine ⟨c.1, ⟨hlen, by rw [hst]⟩, ?_⟩
    rintro y ⟨hy, hyeq⟩
    rw [hst] at hyeq
    omega
